import Mathlib

/-!
Verification of the ImageToGCode repository (three Python source variants:
`ImageToGCode.py`, `ImageToGCode2.py`, `InkscapeToGCode.py`) against its
natural-language specification.

The embedding below translates the relevant source functions into Lean.
Machine floats are modelled by `ℚ` (the computations involved are field
operations and comparisons, exact on the sampled inputs), pixel grids by
functions `Nat → Nat → ℚ`, and the emitted G-code text stream by a list of
`Cmd` values, one per written line.
-/

/-- Python `int(...)` applied to a real value: truncation toward zero. -/
def pyint (q : ℚ) : ℤ := if 0 ≤ q then ⌊q⌋ else ⌈q⌉

/-- Python 3 `round` (and `round(x, k)` at digit `k` after scaling):
round half to even ("banker's rounding"). -/
def roundHalfEven (q : ℚ) : ℤ :=
  if q - ⌊q⌋ < 1 / 2 then ⌊q⌋
  else if 1 / 2 < q - ⌊q⌋ then ⌊q⌋ + 1
  else if 2 ∣ ⌊q⌋ then ⌊q⌋ else ⌊q⌋ + 1

/-- Python `round(x, 3)`, used for the `last_pos` comparison in
`ImageToGCode2.generate_gcode`. -/
def round3 (q : ℚ) : ℚ := (roundHalfEven (q * 1000) : ℚ) / 1000

/-- Python `range(0, stop, step)` for `step ≥ 1`: the `⌈stop/step⌉`
multiples of `step` below `stop`. -/
def pyRangeStep (stop step : Nat) : List Nat :=
  (List.range ((stop + step - 1) / step)).map (· * step)

/-- A 2-D point with rational coordinates. -/
abbrev Pt : Type := ℚ × ℚ

/-- A Segment: ordered pair of points (start, end). -/
abbrev Seg : Type := Pt × Pt

/-- One line of the emitted G-code stream.  `comment` stands for a `;`-comment
line, `unitsMM` for the `G21` unit declaration, `absolute` for the `G90`
absolute-positioning declaration, `rapid x y` for `G0 X.. Y..`,
`penDown` / `penUp` for the configured pen actuation strings
(`M3;S0` / `M5;S180`) and `linear x y f` for `G1 X.. Y.. F..`. -/
inductive Cmd : Type
  | comment : Cmd
  | unitsMM : Cmd
  | absolute : Cmd
  | rapid : ℚ → ℚ → Cmd
  | penDown : Cmd
  | linear : ℚ → ℚ → ℚ → Cmd
  | penUp : Cmd
deriving DecidableEq

namespace Cmd

/-- Discriminator for `linear` commands. -/
def isLin : Cmd → Bool
  | .linear _ _ _ => true
  | _ => false

/-- A command that is neither pen actuation nor a linear move
(header material and rapid moves). -/
def neutral : Cmd → Bool
  | .penDown => false
  | .penUp => false
  | .linear _ _ _ => false
  | _ => true

end Cmd

/-! ## Modelled contour extraction (external library)

`generate_outline` in `ImageToGCode2.py` and `InkscapeToGCode.py` calls
`skimage.measure.find_contours(1 - img_array, 0.5)`, which is external
library code, not part of this repository. -/

namespace MS

/-- Modelled from the spec: the vertex-level ink test of the contour finder.
Spec §4.1 states "The ink/non-ink test is `tone(p) ≥ τ` evaluated on the
*inverted* or *direct* field per the fixed polarity convention"; a vertex is
on the ink side of the level set iff its value is at least the level.  The
implementation delegates the test to the external
`skimage.measure.find_contours`, whose comparison convention is not part of
this repository. -/
def contourLevelTest (level q : ℚ) : Bool := decide (level ≤ q)

/-- Modelled from the spec: the ContourTracer "returns a PathSet of open or
closed polylines tracing the τ-level boundary between ink and non-ink"
(spec §4.1); the implementation delegates to the external
`skimage.measure.find_contours` (marching squares).  We model one cell edge:
it carries a contour crossing point (linearly interpolated) exactly when its
two endpoint values lie on opposite sides of the level. -/
def edgeCross (level a b : ℚ) (pa pb : Pt) : List Pt :=
  if contourLevelTest level a ≠ contourLevelTest level b then
    [(pa.1 + (level - a) / (b - a) * (pb.1 - pa.1),
      pa.2 + (level - a) / (b - a) * (pb.2 - pa.2))]
  else []

/-- Modelled from the spec: the crossing points the marching-squares cell with
top-left vertex `(i, j)` contributes; empty when all four corners lie on the
same side of the level.  Points are `(row, col)` pairs, as returned by
`find_contours`. -/
def cellPts (g : Nat → Nat → ℚ) (level : ℚ) (i j : Nat) : List Pt :=
  edgeCross level (g i j) (g i (j + 1)) ((i : ℚ), (j : ℚ)) ((i : ℚ), (j : ℚ) + 1) ++
  edgeCross level (g i (j + 1)) (g (i + 1) (j + 1)) ((i : ℚ), (j : ℚ) + 1) ((i : ℚ) + 1, (j : ℚ) + 1) ++
  edgeCross level (g (i + 1) (j + 1)) (g (i + 1) j) ((i : ℚ) + 1, (j : ℚ) + 1) ((i : ℚ) + 1, (j : ℚ)) ++
  edgeCross level (g (i + 1) j) (g i j) ((i : ℚ) + 1, (j : ℚ)) ((i : ℚ), (j : ℚ))

/-- Modelled from the spec: `find_contours` returns the per-cell polylines of
crossing points, dropping cells with no crossing. -/
def findContours (g : Nat → Nat → ℚ) (level : ℚ) (H W : Nat) : List (List Pt) :=
  ((List.range (H - 1)).flatMap fun i =>
    (List.range (W - 1)).map fun j => cellPts g level i j).filter (· ≠ [])

/-- `(p[1], p[0])` coordinate swap applied by `generate_outline` to every
contour point (`(row, col)` to `(x, y)`). -/
def swapPt (p : Pt) : Pt := (p.2, p.1)

/-- Turn a contour polyline into the list of its consecutive-point segments,
swapping each point to `(x, y)` order — the loop body of `generate_outline`. -/
def polySegs : List Pt → List Seg
  | p :: q :: rest => (swapPt p, swapPt q) :: polySegs (q :: rest)
  | _ => []

end MS

/-! ## ImageToGCode2.py -/

namespace ImageToGCode2

/-- `pixel_to_mm` (ImageToGCode2.py lines 47–51): map a pixel coordinate to mm
within the printed area, flipping Y so the origin is bottom-left. -/
def pixel_to_mm (x y img_w_px img_h_px printed_w_mm printed_h_mm : ℚ) : ℚ × ℚ :=
  let sx := printed_w_mm / img_w_px
  let sy := printed_h_mm / img_h_px
  (x * sx, (img_h_px - y) * sy)

/-- `generate_outline` (lines 55–64): contours of the inverted field at level
0.5, chopped into consecutive-point segments. -/
def generate_outline (v : Nat → Nat → ℚ) (H W : Nat) : List Seg :=
  (MS.findContours (fun i j => 1 - v i j) (1 / 2) H W).flatMap MS.polySegs

/-- The black-pixel test of `generate_fill_lines_bw` (line 76):
`row[x] < 0.5`. -/
def bwInkTest (q : ℚ) : Bool := decide (q < 1 / 2)

/-- The row-scanning loop of `generate_fill_lines_bw` (lines 73–84).  The
fuel argument `n` counts the remaining pixels (`x + n = width` at every
call); the `Option Nat` state carries `start_x` when a run is open
(`inside = True`).  On an ink→non-ink transition the run closes as
`(start_x, x - 1)`; a run still open at the row's end closes as
`(start_x, width - 1)`. -/
def scanRowAux (ink : Nat → Bool) (width : Nat) : Nat → Nat → Option Nat → List (Nat × Nat)
  | 0, _, none => []
  | 0, _, some s => [(s, width - 1)]
  | n + 1, x, none =>
    if ink x then scanRowAux ink width n (x + 1) (some x)
    else scanRowAux ink width n (x + 1) none
  | n + 1, x, some s =>
    if ink x then scanRowAux ink width n (x + 1) (some s)
    else (s, x - 1) :: scanRowAux ink width n (x + 1) none

/-- One full row scan of `generate_fill_lines_bw`. -/
def scanRow (ink : Nat → Bool) (width : Nat) : List (Nat × Nat) :=
  scanRowAux ink width width 0 none

/-- `generate_fill_lines_bw` (lines 66–85): horizontal runs of black pixels on
every `step`-th row, `step = max 1 (int spacing_px)`.  Output segments are in
pixel coordinates `((start_x, y), (end_x, y))`. -/
def generate_fill_lines_bw (v : Nat → Nat → ℚ) (height width : Nat) (spacing_px : ℚ) :
    List ((Nat × Nat) × (Nat × Nat)) :=
  let step := max 1 (pyint spacing_px).toNat
  (pyRangeStep height step).flatMap fun y =>
    (scanRow (fun x => bwInkTest (v y x)) width).map fun se => ((se.1, y), (se.2, y))

/-- Mean of a list of rationals (`np.mean`). -/
def listMean (l : List ℚ) : ℚ := l.sum / l.length

/-- The pixel block `img_array[y:y+bs, x:x+bs]` of
`generate_density_hatch_blocks` (line 99), clipped to the array bounds,
flattened row-major. -/
def blockVals (v : Nat → Nat → ℚ) (h w y x bs : Nat) : List ℚ :=
  (List.range (min bs (h - y))).flatMap fun dy =>
    (List.range (min bs (w - x))).map fun dx => v (y + dy) (x + dx)

/-- The per-block line count of `generate_density_hatch_blocks`
(lines 102–103): `int(round((1.0 - mean(block)) * max_lines_per_block))`
with Python's half-to-even rounding. -/
def blockLineCount (vals : List ℚ) (maxLines : Nat) : ℤ :=
  roundHalfEven ((1 - listMean vals) * maxLines)

/-- The segments emitted for one block (lines 106–111): `num` parallel
micro-segments, the `i`-th at offset `(i + 0.5) * (bs / max_lines_per_block)`
within the block, axis-aligned or diagonal. -/
def blockSegs (diagonal : Bool) (step bs maxLines x y : Nat) (num : Nat) : List Seg :=
  (List.range num).map fun (i : Nat) =>
    let offset := ((i : ℚ) + 1 / 2) * ((bs : ℚ) / (maxLines : ℚ))
    if diagonal then
      (((x : ℚ), (y : ℚ) + offset), ((x : ℚ) + step, (y : ℚ) + offset + step))
    else
      (((x : ℚ), (y : ℚ) + offset), ((x : ℚ) + step, (y : ℚ) + offset))

/-- `generate_density_hatch_blocks` (lines 87–113): partition the field into
blocks on a `step × step` grid, compute each block's mean darkness and emit
the quantized number of hatch lines for it. -/
def generate_density_hatch_blocks (v : Nat → Nat → ℚ) (h w : Nat)
    (step_px : ℚ) (maxLines : Nat) (diagonal : Bool) (block_size : ℚ) : List Seg :=
  let step := max 1 (pyint step_px).toNat
  let bs := max 1 (pyint block_size).toNat
  (pyRangeStep h step).flatMap fun y =>
    (pyRangeStep w step).flatMap fun x =>
      let block := blockVals v h w y x bs
      if block = [] then []
      else
        let num := blockLineCount block maxLines
        if num ≤ 0 then [] else blockSegs diagonal step bs maxLines x y num.toNat

/-- The per-segment body of `generate_gcode` (lines 140–152): skip the segment
when both mm deltas are below `SKIP_TINY_MOVE_MM`; otherwise rapid to the
start unless `last_pos` already equals its rounded position, then pen down,
linear move, pen up; `last_pos` becomes the rounded end position. -/
def emitSeg (tiny feed : ℚ) (toMM : Pt → Pt) (last : Option Pt) (sg : Seg) :
    List Cmd × Option Pt :=
  if |(toMM sg.2).1 - (toMM sg.1).1| < tiny ∧ |(toMM sg.2).2 - (toMM sg.1).2| < tiny then
    ([], last)
  else
    ((if last = some (round3 (toMM sg.1).1, round3 (toMM sg.1).2) then [] else
        [Cmd.rapid (toMM sg.1).1 (toMM sg.1).2]) ++
      [Cmd.penDown, Cmd.linear (toMM sg.2).1 (toMM sg.2).2 feed, Cmd.penUp],
     some (round3 (toMM sg.2).1, round3 (toMM sg.2).2))

/-- The segment loop of `generate_gcode`, threading `last_pos`. -/
def goSegs (tiny feed : ℚ) (toMM : Pt → Pt) : List Seg → Option Pt → List Cmd
  | [], _ => []
  | sg :: rest, last =>
    (emitSeg tiny feed toMM last sg).1 ++
      goSegs tiny feed toMM rest (emitSeg tiny feed toMM last sg).2

/-- `generate_gcode` (lines 132–152): one size-comment line, the `G21` and
`G90` header lines, then the pen-bracketed moves for each segment. -/
def generate_gcode (lines_px : List Seg) (img_w_px img_h_px printed_w_mm printed_h_mm tiny feed : ℚ) :
    List Cmd :=
  Cmd.comment :: Cmd.unitsMM :: Cmd.absolute ::
    goSegs tiny feed
      (fun p => pixel_to_mm p.1 p.2 img_w_px img_h_px printed_w_mm printed_h_mm)
      lines_px none

end ImageToGCode2

/-! ## InkscapeToGCode.py -/

namespace InkscapeToGCode

/-- `PAGE_WIDTH = 135` (mm). -/
def PAGE_WIDTH : ℚ := 135

/-- `PAGE_HEIGHT = 210` (mm). -/
def PAGE_HEIGHT : ℚ := 210

/-- `FEED_RATE = 800` (mm/min). -/
def FEED_RATE : ℚ := 800

/-- `pixel_to_mm` (InkscapeToGCode.py lines 25–29): convert pixel coordinates
to mm on the page, flipping Y for plotter orientation. -/
def pixel_to_mm (x y img_w img_h page_w page_h : ℚ) : ℚ × ℚ :=
  let scale_x := page_w / img_w
  let scale_y := page_h / img_h
  (x * scale_x, (img_h - y) * scale_y)

/-- `generate_outline` (lines 32–40), identical to the ImageToGCode2 variant. -/
def generate_outline (v : Nat → Nat → ℚ) (H W : Nat) : List Seg :=
  (MS.findContours (fun i j => 1 - v i j) (1 / 2) H W).flatMap MS.polySegs

/-- The row loop of `generate_fill_lines` (lines 60–72), iterating the given
index list (`range(width)` on even rows, `range(width-1, -1, -1)` on odd
rows).  `lastIdx` is `x_range[-1]`, used to close a run still open at the end
of the row; a run closed mid-row by a non-ink pixel at `x` is emitted as
`(start, x - 1)` regardless of scan direction. -/
def fillRowAux (ink : ℤ → Bool) (lastIdx : ℤ) : List ℤ → Option ℤ → List (ℤ × ℤ)
  | [], none => []
  | [], some s => [(s, lastIdx)]
  | x :: rest, none =>
    if ink x then fillRowAux ink lastIdx rest (some x)
    else fillRowAux ink lastIdx rest none
  | x :: rest, some s =>
    if ink x then fillRowAux ink lastIdx rest (some s)
    else (s, x - 1) :: fillRowAux ink lastIdx rest none

/-- Ascending scan order `range(width)` as integers. -/
def ascXs (width : Nat) : List ℤ := (List.range width).map Int.ofNat

/-- Descending scan order `range(width - 1, -1, -1)` as integers. -/
def descXs (width : Nat) : List ℤ := (ascXs width).reverse

/-- `generate_fill_lines` (lines 43–74): boustrophedon fill.  Rows are sampled
every `step_px = max 1 (int (step_mm / page_w * width))` rows; even row
indices scan left→right, odd ones right→left. -/
def generate_fill_lines (v : Nat → Nat → ℚ) (height width : Nat) (step_mm page_w : ℚ) :
    List ((ℤ × ℤ) × (ℤ × ℤ)) :=
  let step_px := max 1 (pyint (step_mm / page_w * width)).toNat
  (pyRangeStep height step_px).enum.flatMap fun iy =>
    let xs : List ℤ := if iy.1 % 2 = 0 then ascXs width else descXs width
    let ink : ℤ → Bool := fun x => ImageToGCode2.bwInkTest (v iy.2 x.toNat)
    (fillRowAux ink (xs.getLastD 0) xs none).map fun se =>
      ((se.1, (iy.2 : ℤ)), (se.2, (iy.2 : ℤ)))

/-- `generate_gcode` (lines 92–102): the two header lines, then an
unconditional rapid / pen-down / linear / pen-up block per segment. -/
def generate_gcode (lines : List Seg) (img_w img_h : ℚ) : List Cmd :=
  Cmd.unitsMM :: Cmd.absolute ::
    lines.flatMap fun sg =>
      let p0 := pixel_to_mm sg.1.1 sg.1.2 img_w img_h PAGE_WIDTH PAGE_HEIGHT
      let p1 := pixel_to_mm sg.2.1 sg.2.2 img_w img_h PAGE_WIDTH PAGE_HEIGHT
      [Cmd.rapid p0.1 p0.2, Cmd.penDown, Cmd.linear p1.1 p1.2 FEED_RATE, Cmd.penUp]

end InkscapeToGCode

/-! ## ImageToGCode.py -/

namespace ImageToGCode

/-- `PAGE_WIDTH = 148` (A5 width, mm). -/
def PAGE_WIDTH : ℚ := 148

/-- `PAGE_HEIGHT = 210` (A5 height, mm). -/
def PAGE_HEIGHT : ℚ := 210

/-- `FEED_RATE = 800` (mm/min). -/
def FEED_RATE : ℚ := 800

/-- `pixel_to_mm` (ImageToGCode.py lines 52–56): convert pixel coordinates to
mm on the page.  This variant applies no Y flip. -/
def pixel_to_mm (x y img_width img_height page_width page_height : ℚ) : ℚ × ℚ :=
  let scale_x := page_width / img_width
  let scale_y := page_height / img_height
  (x * scale_x, y * scale_y)

/-- The grayscale ink test of `generate_hatch_lines` (line 42):
`img_array[y, x] < gray_threshold`. -/
def hatchInkTest (thr q : ℚ) : Bool := decide (q < thr)

/-- `y = int(offset - x)` (line 40). -/
def hatchY (o : ℚ) (x : Nat) : ℤ := pyint (o - x)

/-- The bounds test `0 <= y < height` (line 41). -/
def hatchInB (H : Nat) (o : ℚ) (x : Nat) : Bool :=
  decide (0 ≤ hatchY o x) && decide (hatchY o x < H)

/-- The pixel-space point `(x, y)` appended to `line_points` (line 43). -/
def hatchPos (o : ℚ) (x : Nat) : Pt := ((x : ℚ), (hatchY o x : ℚ))

/-- `if len(line_points) > 1: lines.append((line_points[0], line_points[-1]))`
(lines 45–46 and 48–49): close an accumulated point run into one segment from
its first to its last point, discarding runs of fewer than two points. -/
def closeRun : List Pt → List Seg
  | p0 :: p1 :: rest => [(p0, (p1 :: rest).getLastD p0)]
  | _ => []

/-- The per-offset loop of `generate_hatch_lines` (lines 38–49): walk
`x ∈ range(width)` with fuel `n` (`x + n = width` at each call); an in-bounds
ink pixel extends the current point run, an in-bounds non-ink pixel closes it,
an out-of-bounds `y` leaves the run untouched; at the end of the walk the run
is closed. -/
def hatchRowAux (inB ink : Nat → Bool) (pos : Nat → Pt) :
    Nat → Nat → List Pt → List Seg
  | 0, _, pts => closeRun pts
  | n + 1, x, pts =>
    if inB x then
      if ink x then hatchRowAux inB ink pos n (x + 1) (pts ++ [pos x])
      else closeRun pts ++ hatchRowAux inB ink pos n (x + 1) []
    else hatchRowAux inB ink pos n (x + 1) pts

/-- The segments generated for one diagonal offset. -/
def hatchRow (v : Nat → Nat → ℚ) (H W : Nat) (thr o : ℚ) : List Seg :=
  hatchRowAux (hatchInB H o)
    (fun x => hatchInkTest thr (v (hatchY o x).toNat x))
    (hatchPos o) W 0 []

/-- `np.arange(0, stop, step)` for rationals: the `⌈stop/step⌉` values
`0, step, 2·step, …` below `stop` (numpy computes exactly
`ceil((stop - start) / step)` elements). -/
def arangeQ (stop step : ℚ) : List ℚ :=
  (List.range (Int.toNat ⌈stop / step⌉)).map fun (k : Nat) => (k : ℚ) * step

/-- `generate_hatch_lines` (lines 32–50): diagonal hatch lines, one point run
per offset `o = x + y` stepping by `spacing` over `[0, width + height)`. -/
def generate_hatch_lines (v : Nat → Nat → ℚ) (H W : Nat) (spacing thr : ℚ) : List Seg :=
  (arangeQ ((W : ℚ) + (H : ℚ)) spacing).flatMap (hatchRow v H W thr)

/-- The G-code emission loop of the main script (lines 125–142): the two
header lines, then an unconditional rapid / pen-down / linear / pen-up block
per segment, mapped through this file's flip-free `pixel_to_mm`. -/
def mainLoopGcode (lines : List Seg) (img_width img_height : ℚ) : List Cmd :=
  Cmd.unitsMM :: Cmd.absolute ::
    lines.flatMap fun sg =>
      let p0 := pixel_to_mm sg.1.1 sg.1.2 img_width img_height PAGE_WIDTH PAGE_HEIGHT
      let p1 := pixel_to_mm sg.2.1 sg.2.2 img_width img_height PAGE_WIDTH PAGE_HEIGHT
      [Cmd.rapid p0.1 p0.2, Cmd.penDown, Cmd.linear p1.1 p1.2 FEED_RATE, Cmd.penUp]

end ImageToGCode

/-! ## Stream well-formedness: balanced pen actuation -/

/-- Command streams that are a concatenation of segment blocks, each block a
rapid move (optional) followed by pen-down, one linear move, pen-up.  Every
segment loop in the three source files emits streams of this shape after its
header. -/
inductive Blocks : List Cmd → Prop
  | nil : Blocks []
  | consR (x y a b f : ℚ) {cs : List Cmd} (h : Blocks cs) :
      Blocks (Cmd.rapid x y :: Cmd.penDown :: Cmd.linear a b f :: Cmd.penUp :: cs)
  | consN (a b f : ℚ) {cs : List Cmd} (h : Blocks cs) :
      Blocks (Cmd.penDown :: Cmd.linear a b f :: Cmd.penUp :: cs)

/-- Balanced pen actuation: no linear move opens the stream, and every linear
move is immediately preceded by exactly one `penDown` (the command before it
is `penDown`, the one before that is not) and immediately followed by exactly
one `penUp` (the command after it is `penUp`, the one after that is not). -/
def balancedStream (cs : List Cmd) : Prop :=
  (∀ x y f, cs[0]? ≠ some (Cmd.linear x y f)) ∧
  ∀ i x y f, cs[i + 1]? = some (Cmd.linear x y f) →
    cs[i]? = some Cmd.penDown ∧ cs[i + 2]? = some Cmd.penUp ∧
    (∀ j, j + 1 = i → cs[j]? ≠ some Cmd.penDown) ∧ cs[i + 3]? ≠ some Cmd.penUp

/-! ## Run predicates for the scanline filler -/

namespace ImageToGCode2

/-- `(s, e)` is a maximal contiguous run of ink pixels on a row of the given
width: nonempty, within bounds, every pixel from `s` to `e` passes the ink
test, and the pixels immediately outside either bound (when they exist) fail
it. -/
def isMaxRun (ink : Nat → Bool) (width s e : Nat) : Prop :=
  s ≤ e ∧ e < width ∧ (∀ x, s ≤ x → x ≤ e → ink x = true) ∧
  (s = 0 ∨ ink (s - 1) = false) ∧ (e = width - 1 ∨ ink (e + 1) = false)

/-- Reachable-state invariant of the scanner at position `x`: with no open
run, the previous pixel (if any) was not ink; with an open run started at
`s0`, every pixel from `s0` to `x - 1` was ink and the pixel before `s0` (if
any) was not. -/
def OkState (ink : Nat → Bool) (x : Nat) : Option Nat → Prop
  | none => x = 0 ∨ ink (x - 1) = false
  | some s0 => s0 < x ∧ (∀ t, s0 ≤ t → t < x → ink t = true) ∧
      (s0 = 0 ∨ ink (s0 - 1) = false)

/-- Lower bound on the start of any run the scanner can still emit. -/
def lbState (x : Nat) : Option Nat → Nat
  | none => x
  | some s0 => s0

end ImageToGCode2

/-! # Theorems -/

/-! ## Properties of the rounding helpers -/

theorem le_roundHalfEven (q : ℚ) : ⌊q⌋ ≤ roundHalfEven q := by
  unfold roundHalfEven
  split_ifs <;> omega

theorem roundHalfEven_le_floor_add_one (q : ℚ) : roundHalfEven q ≤ ⌊q⌋ + 1 := by
  unfold roundHalfEven
  split_ifs <;> omega

theorem roundHalfEven_mono {q r : ℚ} (h : q ≤ r) :
    roundHalfEven q ≤ roundHalfEven r := by
  rcases lt_or_eq_of_le (Int.floor_mono h) with hf | hf
  · calc roundHalfEven q ≤ ⌊q⌋ + 1 := roundHalfEven_le_floor_add_one q
      _ ≤ ⌊r⌋ := by omega
      _ ≤ roundHalfEven r := le_roundHalfEven r
  · unfold roundHalfEven
    rw [← hf]
    split_ifs <;> first | omega | linarith

theorem roundHalfEven_nonneg {q : ℚ} (h : 0 ≤ q) : 0 ≤ roundHalfEven q := by
  have h0 : (0 : ℤ) ≤ ⌊q⌋ := Int.floor_nonneg.mpr h
  have := le_roundHalfEven q
  omega

theorem roundHalfEven_le_of_le {q : ℚ} {L : ℤ} (h : q ≤ L) :
    roundHalfEven q ≤ L := by
  have hf : ⌊q⌋ ≤ L := by
    have := Int.floor_mono h
    rwa [Int.floor_intCast] at this
  rcases lt_or_eq_of_le hf with hlt | heq
  · have := roundHalfEven_le_floor_add_one q
    omega
  · have hcast : (⌊q⌋ : ℚ) = (L : ℚ) := by exact_mod_cast heq
    have hr : q - ⌊q⌋ ≤ 0 := by linarith [Int.floor_le q]
    unfold roundHalfEven
    split_ifs <;> first | omega | linarith

/-! ## C1: coordinate mapping and the vertical flip -/

/-- C1 counterexample: the claim states that every coordinate mapper returns
`y_mm = (img_h_px - y_px) * (printed_h / img_h_px)`, but `ImageToGCode.py`'s
`pixel_to_mm` applies no vertical flip: at pixel `(0, 0)` of a 10×10 image
printed at 100×100 it returns `y_mm = 0`, not the flipped value 100. -/
theorem C1_counterexample :
    (ImageToGCode.pixel_to_mm 0 0 10 10 100 100).2 ≠ ((10 - 0) * (100 / 10) : ℚ) := by
  norm_num [ImageToGCode.pixel_to_mm]

theorem goSegs_coords (tiny feed : ℚ) (toMM : Pt → Pt) :
    ∀ (ls : List Seg) (last : Option Pt),
      (∀ a b, Cmd.rapid a b ∈ ImageToGCode2.goSegs tiny feed toMM ls last →
        ∃ sg ∈ ls, (a, b) = toMM sg.1) ∧
      (∀ a b f, Cmd.linear a b f ∈ ImageToGCode2.goSegs tiny feed toMM ls last →
        ∃ sg ∈ ls, f = feed ∧ (a, b) = toMM sg.2) := by
  intro ls
  induction ls with
  | nil =>
    intro last
    constructor
    · intro a b hmem
      simp [ImageToGCode2.goSegs] at hmem
    · intro a b f hmem
      simp [ImageToGCode2.goSegs] at hmem
  | cons sg rest ih =>
    intro last
    constructor
    · intro a b hmem
      rw [ImageToGCode2.goSegs] at hmem
      rcases List.mem_append.mp hmem with h | h
      · unfold ImageToGCode2.emitSeg at h
        split_ifs at h with h1 h2
        · simp at h
        · simp at h
        · rcases List.mem_append.mp h with h' | h'
          · simp only [List.mem_singleton] at h'
            injection h' with ha hb
            subst ha; subst hb
            exact ⟨sg, List.mem_cons_self sg rest, rfl⟩
          · simp at h'
      · obtain ⟨sg', hsg', heq⟩ := (ih _).1 a b h
        exact ⟨sg', List.mem_cons_of_mem sg hsg', heq⟩
    · intro a b f hmem
      rw [ImageToGCode2.goSegs] at hmem
      rcases List.mem_append.mp hmem with h | h
      · unfold ImageToGCode2.emitSeg at h
        split_ifs at h with h1 h2
        · simp at h
        · simp only [List.nil_append, List.mem_cons, List.mem_singleton] at h
          rcases h with h' | h' | h' | h'
          · exact Cmd.noConfusion h'
          · injection h' with ha hb hf
            subst ha; subst hb; subst hf
            exact ⟨sg, List.mem_cons_self sg rest, rfl, rfl⟩
          · exact Cmd.noConfusion h'
          · exact absurd h' (List.not_mem_nil _)
        · rcases List.mem_append.mp h with h' | h'
          · simp at h'
          · simp only [List.mem_cons, List.mem_singleton] at h'
            rcases h' with h'' | h'' | h'' | h''
            · exact Cmd.noConfusion h''
            · injection h'' with ha hb hf
              subst ha; subst hb; subst hf
              exact ⟨sg, List.mem_cons_self sg rest, rfl, rfl⟩
            · exact Cmd.noConfusion h''
            · exact absurd h'' (List.not_mem_nil _)
      · obtain ⟨sg', hsg', heq⟩ := (ih _).2 a b f h
        exact ⟨sg', List.mem_cons_of_mem sg hsg', heq⟩

/-- C1 (amended): the mappers of `ImageToGCode2.py` and `InkscapeToGCode.py`
return `x_mm = x_px * (printed_w / img_w_px)` and
`y_mm = (img_h_px - y_px) * (printed_h / img_h_px)`, and their G-code loops
apply that same mapper to both endpoints of every Segment regardless of
which generator produced it: `InkscapeToGCode.generate_gcode` emits the
mapped start (G0) and mapped end (G1) of every input Segment, and every G0
or G1 coordinate `ImageToGCode2.generate_gcode` emits is the image under its
mapper of the corresponding endpoint (start for G0, end for G1) of some
input Segment; `ImageToGCode.py`'s mapper instead returns the unflipped
`y_mm = y_px * (page_h / img_h_px)`. -/
theorem C1_amended (x y w h pw ph w2 h2 tiny feed : ℚ)
    (lines lines2 : List Seg) (sg : Seg) :
    ImageToGCode2.pixel_to_mm x y w h pw ph = (x * (pw / w), (h - y) * (ph / h)) ∧
    InkscapeToGCode.pixel_to_mm x y w h pw ph = (x * (pw / w), (h - y) * (ph / h)) ∧
    ImageToGCode.pixel_to_mm x y w h pw ph = (x * (pw / w), y * (ph / h)) ∧
    (sg ∈ lines →
      (Cmd.rapid
          (InkscapeToGCode.pixel_to_mm sg.1.1 sg.1.2 w2 h2
            InkscapeToGCode.PAGE_WIDTH InkscapeToGCode.PAGE_HEIGHT).1
          (InkscapeToGCode.pixel_to_mm sg.1.1 sg.1.2 w2 h2
            InkscapeToGCode.PAGE_WIDTH InkscapeToGCode.PAGE_HEIGHT).2 ∈
        InkscapeToGCode.generate_gcode lines w2 h2 ∧
      Cmd.linear
          (InkscapeToGCode.pixel_to_mm sg.2.1 sg.2.2 w2 h2
            InkscapeToGCode.PAGE_WIDTH InkscapeToGCode.PAGE_HEIGHT).1
          (InkscapeToGCode.pixel_to_mm sg.2.1 sg.2.2 w2 h2
            InkscapeToGCode.PAGE_WIDTH InkscapeToGCode.PAGE_HEIGHT).2
          InkscapeToGCode.FEED_RATE ∈
        InkscapeToGCode.generate_gcode lines w2 h2)) ∧
    (∀ a b, Cmd.rapid a b ∈ ImageToGCode2.generate_gcode lines2 w h pw ph tiny feed →
      ∃ sg2 ∈ lines2, (a, b) = ImageToGCode2.pixel_to_mm sg2.1.1 sg2.1.2 w h pw ph) ∧
    (∀ a b f, Cmd.linear a b f ∈ ImageToGCode2.generate_gcode lines2 w h pw ph tiny feed →
      ∃ sg2 ∈ lines2, f = feed ∧
        (a, b) = ImageToGCode2.pixel_to_mm sg2.2.1 sg2.2.2 w h pw ph) := by
  refine ⟨rfl, rfl, rfl, fun hsg => ⟨?_, ?_⟩, ?_, ?_⟩
  · unfold InkscapeToGCode.generate_gcode
    refine List.mem_cons_of_mem _ (List.mem_cons_of_mem _ ?_)
    rw [List.mem_flatMap]
    exact ⟨sg, hsg, by simp⟩
  · unfold InkscapeToGCode.generate_gcode
    refine List.mem_cons_of_mem _ (List.mem_cons_of_mem _ ?_)
    rw [List.mem_flatMap]
    exact ⟨sg, hsg, by simp⟩
  · intro a b hmem
    unfold ImageToGCode2.generate_gcode at hmem
    simp only [List.mem_cons] at hmem
    rcases hmem with h' | h' | h' | h'
    · exact Cmd.noConfusion h'
    · exact Cmd.noConfusion h'
    · exact Cmd.noConfusion h'
    · exact (goSegs_coords tiny feed
        (fun p => ImageToGCode2.pixel_to_mm p.1 p.2 w h pw ph) lines2 none).1 a b h'
  · intro a b f hmem
    unfold ImageToGCode2.generate_gcode at hmem
    simp only [List.mem_cons] at hmem
    rcases hmem with h' | h' | h' | h'
    · exact Cmd.noConfusion h'
    · exact Cmd.noConfusion h'
    · exact Cmd.noConfusion h'
    · exact (goSegs_coords tiny feed
        (fun p => ImageToGCode2.pixel_to_mm p.1 p.2 w h pw ph) lines2 none).2 a b f h'

/-! ## C2: balanced pen actuation -/

theorem blocks_head_cases {cs : List Cmd} (h : Blocks cs) :
    cs[0]? ≠ some Cmd.penUp ∧ ∀ x y f, cs[0]? ≠ some (Cmd.linear x y f) := by
  cases h <;> simp

theorem blocks_balanced {cs : List Cmd} (h : Blocks cs) : balancedStream cs := by
  induction h with
  | nil =>
    refine ⟨by simp, fun i x y f hlin => ?_⟩
    simp at hlin
  | consR x0 y0 a b f0 h ih =>
    rename_i tl
    refine ⟨by simp, fun i x y f hlin => ?_⟩
    match i with
    | 0 => simp at hlin
    | 1 =>
      refine ⟨by simp, by simp, fun j hj => ?_, ?_⟩
      · have hj' : j = 0 := by omega
        subst hj'; simp
      · simpa using (blocks_head_cases h).1
    | 2 => simp at hlin
    | 3 =>
      have hlin' : tl[0]? = some (Cmd.linear x y f) := by simpa using hlin
      exact absurd hlin' ((blocks_head_cases h).2 x y f)
    | (k+4) =>
      have hlin' : tl[k + 1]? = some (Cmd.linear x y f) := by simpa using hlin
      obtain ⟨h1, h2, h3, h4⟩ := ih.2 k x y f hlin'
      refine ⟨by simpa using h1, by simpa using h2, fun j hj => ?_, by simpa using h4⟩
      have hj' : j = k + 3 := by omega
      subst hj'
      match k with
      | 0 => simp
      | (m+1) => simpa using h3 m rfl
  | consN a b f0 h ih =>
    rename_i tl
    refine ⟨by simp, fun i x y f hlin => ?_⟩
    match i with
    | 0 =>
      refine ⟨by simp, by simp, fun j hj => by omega, ?_⟩
      simpa using (blocks_head_cases h).1
    | 1 => simp at hlin
    | 2 =>
      have hlin' : tl[0]? = some (Cmd.linear x y f) := by simpa using hlin
      exact absurd hlin' ((blocks_head_cases h).2 x y f)
    | (k+3) =>
      have hlin' : tl[k + 1]? = some (Cmd.linear x y f) := by simpa using hlin
      obtain ⟨h1, h2, h3, h4⟩ := ih.2 k x y f hlin'
      refine ⟨by simpa using h1, by simpa using h2, fun j hj => ?_, by simpa using h4⟩
      have hj' : j = k + 2 := by omega
      subst hj'
      match k with
      | 0 => simp
      | (m+1) => simpa using h3 m rfl

theorem balanced_header_append (hdr cs : List Cmd)
    (hhdr : ∀ c ∈ hdr, c.neutral = true) (hB : Blocks cs) :
    balancedStream (hdr ++ cs) := by
  have hbal := blocks_balanced hB
  have hneu : ∀ t c, (hdr ++ cs)[t]? = some c → t < hdr.length → c.neutral = true := by
    intro t c hc ht
    rw [List.getElem?_append_left ht] at hc
    exact hhdr c (List.getElem?_mem hc)
  constructor
  · intro x y f hc
    by_cases h0 : 0 < hdr.length
    · have := hneu 0 _ hc h0
      simp [Cmd.neutral] at this
    · have hnil : hdr = [] := by
        cases hdr with
        | nil => rfl
        | cons a l => simp at h0
      subst hnil
      simp only [List.nil_append] at hc
      exact absurd hc (hbal.1 x y f)
  · intro i x y f hlin
    by_cases hlt : i + 1 < hdr.length
    · have := hneu (i + 1) _ hlin hlt
      simp [Cmd.neutral] at this
    · push_neg at hlt
      rw [List.getElem?_append_right hlt] at hlin
      rcases hm : i + 1 - hdr.length with _ | m'
      · rw [hm] at hlin
        exact absurd hlin ((blocks_head_cases hB).2 x y f)
      · rw [hm] at hlin
        obtain ⟨h1, h2, h3, h4⟩ := hbal.2 m' x y f hlin
        have hLi : hdr.length ≤ i := by omega
        refine ⟨?_, ?_, ?_, ?_⟩
        · rw [List.getElem?_append_right hLi]
          have he : i - hdr.length = m' := by omega
          rw [he]; exact h1
        · rw [List.getElem?_append_right (by omega : hdr.length ≤ i + 2)]
          have he : i + 2 - hdr.length = m' + 2 := by omega
          rw [he]; exact h2
        · intro j hj hcontra
          by_cases hjlt : j < hdr.length
          · have := hneu j _ hcontra hjlt
            simp [Cmd.neutral] at this
          · push_neg at hjlt
            rw [List.getElem?_append_right hjlt] at hcontra
            have hj1 : j - hdr.length + 1 = m' := by omega
            exact h3 (j - hdr.length) hj1 hcontra
        · rw [List.getElem?_append_right (by omega : hdr.length ≤ i + 3)]
          have he : i + 3 - hdr.length = m' + 3 := by omega
          rw [he]; exact h4

theorem goSegs_blocks (tiny feed : ℚ) (toMM : Pt → Pt) (ls : List Seg) (last : Option Pt) :
    Blocks (ImageToGCode2.goSegs tiny feed toMM ls last) := by
  induction ls generalizing last with
  | nil => exact Blocks.nil
  | cons sg rest ih =>
    rw [ImageToGCode2.goSegs]
    simp only [ImageToGCode2.emitSeg]
    split_ifs with hskip hlast
    · simpa using ih last
    · simpa using Blocks.consN _ _ _ (ih _)
    · simpa using Blocks.consR _ _ _ _ _ (ih _)

theorem blocks_flatMap_rapid (ls : List Seg) (f0 f1 : Seg → Pt) (feed : ℚ) :
    Blocks (ls.flatMap fun sg =>
      [Cmd.rapid (f0 sg).1 (f0 sg).2, Cmd.penDown,
       Cmd.linear (f1 sg).1 (f1 sg).2 feed, Cmd.penUp]) := by
  induction ls with
  | nil => exact Blocks.nil
  | cons sg rest ih => simpa using Blocks.consR _ _ _ _ _ ih

/-- C2: in every command stream produced by any of the three G-code emitters,
every `linear` (G1) command is immediately preceded by exactly one `penDown`
and immediately followed by exactly one `penUp`, for every input segment
list. -/
theorem C2_balanced_actuation (lines lines2 lines3 : List Seg)
    (w h pw ph tiny feed w2 h2 w3 h3 : ℚ) :
    balancedStream (ImageToGCode2.generate_gcode lines w h pw ph tiny feed) ∧
    balancedStream (InkscapeToGCode.generate_gcode lines2 w2 h2) ∧
    balancedStream (ImageToGCode.mainLoopGcode lines3 w3 h3) := by
  refine ⟨?_, ?_, ?_⟩
  · show balancedStream ([Cmd.comment, Cmd.unitsMM, Cmd.absolute] ++ _)
    exact balanced_header_append _ _
      (by intro c hc; fin_cases hc <;> rfl)
      (goSegs_blocks _ _ _ _ _)
  · show balancedStream ([Cmd.unitsMM, Cmd.absolute] ++ _)
    exact balanced_header_append _ _
      (by intro c hc; fin_cases hc <;> rfl)
      (blocks_flatMap_rapid lines2
        (fun sg => InkscapeToGCode.pixel_to_mm sg.1.1 sg.1.2 w2 h2
          InkscapeToGCode.PAGE_WIDTH InkscapeToGCode.PAGE_HEIGHT)
        (fun sg => InkscapeToGCode.pixel_to_mm sg.2.1 sg.2.2 w2 h2
          InkscapeToGCode.PAGE_WIDTH InkscapeToGCode.PAGE_HEIGHT)
        InkscapeToGCode.FEED_RATE)
  · show balancedStream ([Cmd.unitsMM, Cmd.absolute] ++ _)
    exact balanced_header_append _ _
      (by intro c hc; fin_cases hc <;> rfl)
      (blocks_flatMap_rapid lines3
        (fun sg => ImageToGCode.pixel_to_mm sg.1.1 sg.1.2 w3 h3
          ImageToGCode.PAGE_WIDTH ImageToGCode.PAGE_HEIGHT)
        (fun sg => ImageToGCode.pixel_to_mm sg.2.1 sg.2.2 w3 h3
          ImageToGCode.PAGE_WIDTH ImageToGCode.PAGE_HEIGHT)
        ImageToGCode.FEED_RATE)

/-! ## C3: scanline filler emits exactly the maximal ink runs -/

theorem ImageToGCode2.scanRowAux_mem (ink : Nat → Bool) (width : Nat) :
    ∀ (n x : Nat) (st : Option Nat), x + n = width → ImageToGCode2.OkState ink x st →
      ∀ s e, (s, e) ∈ ImageToGCode2.scanRowAux ink width n x st ↔
        (ImageToGCode2.lbState x st ≤ s ∧ ImageToGCode2.isMaxRun ink width s e) := by
  intro n
  induction n with
  | zero =>
    intro x st hw hok s e
    have hx : x = width := by omega
    cases st with
    | none =>
      simp only [ImageToGCode2.scanRowAux, List.not_mem_nil, false_iff,
        ImageToGCode2.lbState]
      rintro ⟨hs, hse, hew, -⟩
      omega
    | some s0 =>
      obtain ⟨hs0x, hink, hleft⟩ := hok
      simp only [ImageToGCode2.scanRowAux, List.mem_singleton, Prod.mk.injEq,
        ImageToGCode2.lbState]
      constructor
      · rintro ⟨rfl, rfl⟩
        refine ⟨le_refl _, by omega, by omega, fun t ht1 ht2 => hink t ht1 (by omega),
          hleft, Or.inl rfl⟩
      · rintro ⟨hs0s, hse, hew, hall, hleft', hright'⟩
        have hs : s = s0 := by
          by_contra hne
          have hgt : s0 < s := lt_of_le_of_ne hs0s (Ne.symm hne)
          have h1 : ink (s - 1) = true := hink (s - 1) (by omega) (by omega)
          rcases hleft' with h0 | hfalse
          · omega
          · rw [h1] at hfalse; exact Bool.noConfusion hfalse
        have he : e = width - 1 := by
          rcases hright' with h | hfalse
          · exact h
          · by_cases helt : e + 1 < width
            · have := hink (e + 1) (by omega) (by omega)
              rw [this] at hfalse; exact Bool.noConfusion hfalse
            · omega
        exact ⟨hs, he⟩
  | succ n ih =>
    intro x st hw hok s e
    have hxw : x < width := by omega
    cases st with
    | none =>
      rcases hok with hok
      by_cases hix : ink x = true
      · have heq : ImageToGCode2.scanRowAux ink width (n + 1) x none =
            ImageToGCode2.scanRowAux ink width n (x + 1) (some x) := by
          simp only [ImageToGCode2.scanRowAux, hix, if_true]
        rw [heq]
        have hok' : ImageToGCode2.OkState ink (x + 1) (some x) :=
          ⟨by omega, fun t ht1 ht2 => by
            have : t = x := by omega
            subst this; exact hix, hok⟩
        have := ih (x + 1) (some x) (by omega) hok' s e
        simpa [ImageToGCode2.lbState] using this
      · have hfalse : ink x = false := by
          cases hb : ink x with
          | false => rfl
          | true => exact absurd hb hix
        have heq : ImageToGCode2.scanRowAux ink width (n + 1) x none =
            ImageToGCode2.scanRowAux ink width n (x + 1) none := by
          simp only [ImageToGCode2.scanRowAux, hfalse]
          simp
        rw [heq]
        have hok' : ImageToGCode2.OkState ink (x + 1) none := by
          right
          simpa using hfalse
        have hiff := ih (x + 1) none (by omega) hok' s e
        simp only [ImageToGCode2.lbState] at hiff ⊢
        rw [hiff]
        constructor
        · rintro ⟨hxs, hmr⟩
          exact ⟨by omega, hmr⟩
        · rintro ⟨hxs, hmr⟩
          refine ⟨?_, hmr⟩
          rcases lt_or_eq_of_le hxs with hlt | heq2
          · omega
          · exfalso
            obtain ⟨hse, hew, hall, -, -⟩ := hmr
            have := hall s (le_refl s) hse
            rw [← heq2] at this
            rw [this] at hfalse
            exact Bool.noConfusion hfalse
    | some s0 =>
      obtain ⟨hs0x, hink, hleft⟩ := hok
      by_cases hix : ink x = true
      · have heq : ImageToGCode2.scanRowAux ink width (n + 1) x (some s0) =
            ImageToGCode2.scanRowAux ink width n (x + 1) (some s0) := by
          simp only [ImageToGCode2.scanRowAux, hix, if_true]
        rw [heq]
        have hok' : ImageToGCode2.OkState ink (x + 1) (some s0) :=
          ⟨by omega, fun t ht1 ht2 => by
            by_cases htx : t = x
            · subst htx; exact hix
            · exact hink t ht1 (by omega), hleft⟩
        have := ih (x + 1) (some s0) (by omega) hok' s e
        simpa [ImageToGCode2.lbState] using this
      · have hfalse : ink x = false := by
          cases hb : ink x with
          | false => rfl
          | true => exact absurd hb hix
        have heq : ImageToGCode2.scanRowAux ink width (n + 1) x (some s0) =
            (s0, x - 1) :: ImageToGCode2.scanRowAux ink width n (x + 1) none := by
          simp only [ImageToGCode2.scanRowAux, hfalse]
          simp
        rw [heq]
        have hok' : ImageToGCode2.OkState ink (x + 1) none := by
          right; simpa using hfalse
        have hiff := ih (x + 1) none (by omega) hok' s e
        simp only [ImageToGCode2.lbState] at hiff ⊢
        simp only [List.mem_cons, hiff, Prod.mk.injEq]
        constructor
        · rintro (⟨rfl, rfl⟩ | ⟨hxs, hmr⟩)
          · refine ⟨le_refl _, by omega, by omega,
              fun t ht1 ht2 => hink t ht1 (by omega), hleft, Or.inr ?_⟩
            have hx1 : x - 1 + 1 = x := by omega
            rw [hx1]; exact hfalse
          · exact ⟨by omega, hmr⟩
        · rintro ⟨hs0s, hmr⟩
          obtain ⟨hse, hew, hall, hleft', hright'⟩ := hmr
          by_cases hsx : s ≤ x
          · left
            have hs : s = s0 := by
              by_contra hne
              have hgt : s0 < s := lt_of_le_of_ne hs0s (Ne.symm hne)
              have h1 : ink (s - 1) = true := hink (s - 1) (by omega) (by omega)
              rcases hleft' with h0 | hf
              · omega
              · rw [h1] at hf; exact Bool.noConfusion hf
            have heup : e ≤ x - 1 := by
              by_contra hgt
              push_neg at hgt
              have hxe : x ≤ e := by omega
              have := hall x (by omega) hxe
              rw [this] at hfalse; exact Bool.noConfusion hfalse
            have hedown : x - 1 ≤ e := by
              by_contra hlt
              push_neg at hlt
              rcases hright' with hw1 | hf
              · omega
              · have := hink (e + 1) (by omega) (by omega)
                rw [this] at hf; exact Bool.noConfusion hf
            exact ⟨hs, by omega⟩
          · right
            exact ⟨by omega, hse, hew, hall, hleft', hright'⟩

theorem ImageToGCode2.scanRow_mem (ink : Nat → Bool) (width : Nat) (s e : Nat) :
    (s, e) ∈ ImageToGCode2.scanRow ink width ↔ ImageToGCode2.isMaxRun ink width s e := by
  have := ImageToGCode2.scanRowAux_mem ink width width 0 none (by omega) (Or.inl rfl) s e
  simpa [ImageToGCode2.scanRow, ImageToGCode2.lbState] using this

theorem ImageToGCode2.scanRowAux_pairwise (ink : Nat → Bool) (width : Nat) :
    ∀ (n x : Nat) (st : Option Nat), x + n = width → ImageToGCode2.OkState ink x st →
      (ImageToGCode2.scanRowAux ink width n x st).Pairwise (fun a b => a.1 < b.1) := by
  intro n
  induction n with
  | zero =>
    intro x st hw hok
    cases st <;> simp [ImageToGCode2.scanRowAux]
  | succ n ih =>
    intro x st hw hok
    cases st with
    | none =>
      rcases hok with hok
      by_cases hix : ink x = true
      · rw [show ImageToGCode2.scanRowAux ink width (n + 1) x none =
            ImageToGCode2.scanRowAux ink width n (x + 1) (some x) from by
          simp only [ImageToGCode2.scanRowAux, hix, if_true]]
        exact ih (x + 1) (some x) (by omega)
          ⟨by omega, fun t ht1 ht2 => by
            have : t = x := by omega
            subst this; exact hix, hok⟩
      · have hfalse : ink x = false := by
          cases hb : ink x with
          | false => rfl
          | true => exact absurd hb hix
        rw [show ImageToGCode2.scanRowAux ink width (n + 1) x none =
            ImageToGCode2.scanRowAux ink width n (x + 1) none from by
          simp only [ImageToGCode2.scanRowAux, hfalse]; simp]
        exact ih (x + 1) none (by omega) (Or.inr (by simpa using hfalse))
    | some s0 =>
      obtain ⟨hs0x, hink, hleft⟩ := hok
      by_cases hix : ink x = true
      · rw [show ImageToGCode2.scanRowAux ink width (n + 1) x (some s0) =
            ImageToGCode2.scanRowAux ink width n (x + 1) (some s0) from by
          simp only [ImageToGCode2.scanRowAux, hix, if_true]]
        exact ih (x + 1) (some s0) (by omega)
          ⟨by omega, fun t ht1 ht2 => by
            by_cases htx : t = x
            · subst htx; exact hix
            · exact hink t ht1 (by omega), hleft⟩
      · have hfalse : ink x = false := by
          cases hb : ink x with
          | false => rfl
          | true => exact absurd hb hix
        rw [show ImageToGCode2.scanRowAux ink width (n + 1) x (some s0) =
            (s0, x - 1) :: ImageToGCode2.scanRowAux ink width n (x + 1) none from by
          simp only [ImageToGCode2.scanRowAux, hfalse]; simp]
        have hok' : ImageToGCode2.OkState ink (x + 1) none :=
          Or.inr (by simpa using hfalse)
        refine List.Pairwise.cons ?_ (ih (x + 1) none (by omega) hok')
        intro p hp
        obtain ⟨ps, pe⟩ := p
        have hm := (ImageToGCode2.scanRowAux_mem ink width n (x + 1) none
          (by omega) hok' ps pe).mp hp
        simp only [ImageToGCode2.lbState] at hm
        show s0 < ps
        omega

theorem pyRangeStep_nodup (stop step : Nat) (hstep : 1 ≤ step) :
    (pyRangeStep stop step).Nodup := by
  unfold pyRangeStep
  refine List.Nodup.map ?_ (List.nodup_range _)
  intro a b hab
  exact Nat.eq_of_mul_eq_mul_right (by omega) hab

/-- C3: for every sampled row of the field, `generate_fill_lines_bw` emits
exactly one horizontal Segment per maximal contiguous run of ink pixels: a
segment `((s, y), (e, y))` is in the output iff `y` is a sampled row and
`(s, e)` is a maximal run of pixels passing the ink test `v y x < 1/2` —
every pixel inside the run passes, the pixels immediately outside fail, and a
run still open at the row's end is closed at the last valid index
`width - 1` — and the output list contains no duplicates. -/
theorem C3_scanline_runs (v : Nat → Nat → ℚ) (height width : Nat) (spacing_px : ℚ) :
    (∀ seg, seg ∈ ImageToGCode2.generate_fill_lines_bw v height width spacing_px ↔
      ∃ y s e, seg = ((s, y), (e, y)) ∧
        y ∈ pyRangeStep height (max 1 (pyint spacing_px).toNat) ∧
        ImageToGCode2.isMaxRun (fun x => ImageToGCode2.bwInkTest (v y x)) width s e) ∧
    (ImageToGCode2.generate_fill_lines_bw v height width spacing_px).Nodup := by
  constructor
  · intro seg
    simp only [ImageToGCode2.generate_fill_lines_bw, List.mem_flatMap]
    constructor
    · rintro ⟨y, hy, hseg⟩
      rw [List.mem_map] at hseg
      obtain ⟨⟨s, e⟩, hmem, rfl⟩ := hseg
      exact ⟨y, s, e, rfl, hy, (ImageToGCode2.scanRow_mem _ _ s e).mp hmem⟩
    · rintro ⟨y, s, e, rfl, hy, hmr⟩
      refine ⟨y, hy, ?_⟩
      rw [List.mem_map]
      exact ⟨(s, e), (ImageToGCode2.scanRow_mem _ _ s e).mpr hmr, rfl⟩
  · simp only [ImageToGCode2.generate_fill_lines_bw]
    rw [List.nodup_flatMap]
    constructor
    · intro y hy
      refine List.Nodup.map ?_ ?_
      · intro a b hab
        simp only [Prod.mk.injEq] at hab
        exact Prod.ext hab.1.1 hab.2.1
      · have hp := ImageToGCode2.scanRowAux_pairwise
          (fun x => ImageToGCode2.bwInkTest (v y x)) width width 0 none
          (by omega) (Or.inl rfl)
        exact List.Pairwise.imp (fun hab heq => by rw [heq] at hab; exact lt_irrefl _ hab)
          hp
    · have hnd := pyRangeStep_nodup height (max 1 (pyint spacing_px).toNat) (by omega)
      refine List.Pairwise.imp ?_ hnd
      intro y y' hne
      simp only [Function.onFun]
      intro a ha ha'
      rw [List.mem_map] at ha ha'
      obtain ⟨⟨s, e⟩, -, rfl⟩ := ha
      obtain ⟨⟨s', e'⟩, -, hba⟩ := ha'
      simp only [Prod.mk.injEq] at hba
      exact hne hba.1.2.symm

/-! ## C4: tiny-move suppression -/

/-- C4: for every segment whose mm-space endpoints (images of the pixel
endpoints under the configured mapper) lie within the tiny-move threshold of
each other (squared Euclidean distance below `tiny²`), the per-segment
emitter of `ImageToGCode2.generate_gcode` emits no commands and leaves the
tracked `last_pos` unchanged; conversely whenever it emits anything, the
mm-space endpoints of the emitted `G1` move are at squared distance at least
`tiny²`. -/
theorem C4_tiny_moves (tiny feed : ℚ) (toMM : Pt → Pt) (sg : Seg) (last : Option Pt)
    (htiny : 0 ≤ tiny) :
    (((toMM sg.2).1 - (toMM sg.1).1) ^ 2 + ((toMM sg.2).2 - (toMM sg.1).2) ^ 2 < tiny ^ 2 →
      ImageToGCode2.emitSeg tiny feed toMM last sg = ([], last)) ∧
    ((ImageToGCode2.emitSeg tiny feed toMM last sg).1 ≠ [] →
      tiny ^ 2 ≤ ((toMM sg.2).1 - (toMM sg.1).1) ^ 2 + ((toMM sg.2).2 - (toMM sg.1).2) ^ 2) := by
  have habs : ∀ a : ℚ, a ^ 2 < tiny ^ 2 → |a| < tiny := by
    intro a ha
    by_contra hc
    push_neg at hc
    have := pow_le_pow_left₀ htiny hc 2
    rw [sq_abs] at this
    linarith
  have hsq : ∀ a : ℚ, tiny ≤ |a| → tiny ^ 2 ≤ a ^ 2 := by
    intro a ha
    have := pow_le_pow_left₀ htiny ha 2
    rwa [sq_abs] at this
  constructor
  · intro hd
    have h1 : |(toMM sg.2).1 - (toMM sg.1).1| < tiny :=
      habs _ (by nlinarith [sq_nonneg ((toMM sg.2).2 - (toMM sg.1).2)])
    have h2 : |(toMM sg.2).2 - (toMM sg.1).2| < tiny :=
      habs _ (by nlinarith [sq_nonneg ((toMM sg.2).1 - (toMM sg.1).1)])
    unfold ImageToGCode2.emitSeg
    rw [if_pos ⟨h1, h2⟩]
  · intro hne
    by_cases hc : |(toMM sg.2).1 - (toMM sg.1).1| < tiny ∧
        |(toMM sg.2).2 - (toMM sg.1).2| < tiny
    · exfalso
      apply hne
      unfold ImageToGCode2.emitSeg
      rw [if_pos hc]
    · rcases not_and_or.mp hc with h | h
      · have := hsq _ (not_lt.mp h)
        nlinarith [sq_nonneg ((toMM sg.2).2 - (toMM sg.1).2)]
      · have := hsq _ (not_lt.mp h)
        nlinarith [sq_nonneg ((toMM sg.2).1 - (toMM sg.1).1)]

/-- C4 witness: the spec's Scenario 4 — a Segment whose mm image runs from
`(0, 0)` to `(0, 0.001)` with threshold `0.01` produces no commands at all:
the emitter returns `([], none)` and the full stream for that one segment is
only the header. -/
theorem C4_tiny_moves_witness :
    ImageToGCode2.emitSeg (1 / 100) 2000
      (fun p => ImageToGCode2.pixel_to_mm p.1 p.2 10 10 10 10) none
      ((0, 10), (0, 9999 / 1000)) = ([], none) ∧
    ImageToGCode2.generate_gcode [((0, 10), (0, 9999 / 1000))] 10 10 10 10 (1 / 100) 2000 =
      [Cmd.comment, Cmd.unitsMM, Cmd.absolute] := by
  have h := (C4_tiny_moves (1 / 100) 2000
      (fun p => ImageToGCode2.pixel_to_mm p.1 p.2 10 10 10 10)
      ((0, 10), (0, 9999 / 1000)) none (by norm_num)).1
      (by norm_num [ImageToGCode2.pixel_to_mm])
  refine ⟨h, ?_⟩
  unfold ImageToGCode2.generate_gcode
  rw [ImageToGCode2.goSegs, h]
  simp [ImageToGCode2.goSegs]

/-! ## C5: boustrophedon scan — reversed rows close runs at the wrong index -/

/-- C5 (code bug): `generate_fill_lines` closes a run interrupted at pixel
`x` as `(start, x - 1)` even on odd rows, which are scanned right→left; the
correct closing index there is `x + 1`.  Concretely, on the 3×2 field whose
row 1 is `[white, black, black]` with row step 1 (row index 1 is odd, scanned
right→left), the boustrophedon filler emits the segment from `(2, 1)` to
`(-1, 1)` — the endpoint `x = -1` lies outside the image — whereas the
constant left→right scan (`generate_fill_lines_bw`) finds the one maximal run
`[1, 2]` as the segment from `(1, 1)` to `(2, 1)`.  The emitted endpoint pair
`(2, -1)` is neither equal nor endpoint-reversed to the left→right run
`(1, 2)`, refuting the claim that only endpoint order can differ. -/
theorem C5_reverse_scan_bug :
    InkscapeToGCode.generate_fill_lines (fun y x => if y = 1 ∧ 1 ≤ x then 0 else 1) 2 3 1 3 =
      [((2, 1), (-1, 1))] ∧
    ImageToGCode2.generate_fill_lines_bw (fun y x => if y = 1 ∧ 1 ≤ x then 0 else 1) 2 3 1 =
      [((1, 1), (2, 1))] ∧
    ((2 : ℤ), (-1 : ℤ)) ≠ ((1 : ℤ), (2 : ℤ)) ∧ ((2 : ℤ), (-1 : ℤ)) ≠ ((2 : ℤ), (1 : ℤ)) := by
  refine ⟨?_, ?_, by decide, by decide⟩
  · norm_num [InkscapeToGCode.generate_fill_lines, InkscapeToGCode.fillRowAux,
      InkscapeToGCode.ascXs, InkscapeToGCode.descXs, pyRangeStep, pyint,
      ImageToGCode2.bwInkTest, List.range_succ, List.enum, Int.ceil_neg]
  · norm_num [ImageToGCode2.generate_fill_lines_bw, ImageToGCode2.scanRow,
      ImageToGCode2.scanRowAux, pyRangeStep, pyint,
      ImageToGCode2.bwInkTest, List.range_succ, Int.ceil_neg]

/-! ## C6: block density hatch is monotone and quantized to [0, max_lines] -/

theorem list_sum_le_length (l : List ℚ) (h : ∀ q ∈ l, q ≤ 1) :
    l.sum ≤ (l.length : ℚ) := by
  induction l with
  | nil => simp
  | cons a t ih =>
    simp only [List.sum_cons, List.length_cons]
    push_cast
    have ha := h a (List.mem_cons_self a t)
    have ht := ih fun q hq => h q (List.mem_cons_of_mem a hq)
    linarith

theorem listMean_bounds {l : List ℚ} (hne : l ≠ [])
    (hb : ∀ q ∈ l, 0 ≤ q ∧ q ≤ 1) :
    0 ≤ ImageToGCode2.listMean l ∧ ImageToGCode2.listMean l ≤ 1 := by
  have hlen : 0 < (l.length : ℚ) := by
    have := List.length_pos.mpr hne
    exact_mod_cast this
  constructor
  · exact div_nonneg (List.sum_nonneg fun q hq => (hb q hq).1) hlen.le
  · rw [ImageToGCode2.listMean, div_le_one hlen]
    exact list_sum_le_length l fun q hq => (hb q hq).2

/-- C6: for any two nonempty blocks of values in `[0, 1]` under the same
configuration (same `max_lines_per_block`), if the mean ink intensity (mean
blackness `1 - mean`) of `A` exceeds that of `B` then `A` receives at least
as many hatch lines as `B`; the per-block line count is the half-to-even
rounding of `intensity * max_lines`, an integer in `[0, max_lines]`
(`max_lines + 1` quantization levels), and the block emitter outputs exactly
that many segments. -/
theorem C6_block_monotonic (A B : List ℚ) (maxLines : Nat)
    (hA : A ≠ []) (hB : B ≠ [])
    (hAv : ∀ q ∈ A, 0 ≤ q ∧ q ≤ 1) (hBv : ∀ q ∈ B, 0 ≤ q ∧ q ≤ 1)
    (hAB : 1 - ImageToGCode2.listMean B < 1 - ImageToGCode2.listMean A) :
    ImageToGCode2.blockLineCount B maxLines ≤ ImageToGCode2.blockLineCount A maxLines ∧
    0 ≤ ImageToGCode2.blockLineCount A maxLines ∧
    ImageToGCode2.blockLineCount A maxLines ≤ (maxLines : ℤ) ∧
    ImageToGCode2.blockLineCount A maxLines =
      roundHalfEven ((1 - ImageToGCode2.listMean A) * maxLines) ∧
    ∀ diagonal step bs x y,
      (ImageToGCode2.blockSegs diagonal step bs maxLines x y
        (ImageToGCode2.blockLineCount A maxLines).toNat).length =
      (ImageToGCode2.blockLineCount A maxLines).toNat := by
  obtain ⟨hA0, hA1⟩ := listMean_bounds hA hAv
  obtain ⟨hB0, hB1⟩ := listMean_bounds hB hBv
  have hcast : (0 : ℚ) ≤ (maxLines : ℚ) := by positivity
  refine ⟨?_, ?_, ?_, rfl, ?_⟩
  · exact roundHalfEven_mono
      (mul_le_mul_of_nonneg_right (le_of_lt hAB) hcast)
  · exact roundHalfEven_nonneg (mul_nonneg (by linarith) hcast)
  · refine roundHalfEven_le_of_le ?_
    push_cast
    nlinarith
  · intro diagonal step bs x y
    rw [ImageToGCode2.blockSegs, List.length_map, List.length_range]

/-- C6 witness: a fully-black block `[0]` versus a fully-white block `[1]`
with `max_lines_per_block = 4`: the black block gets 4 lines, the white one
0, and 4 lies within `[0, 4]`. -/
theorem C6_block_monotonic_witness :
    ImageToGCode2.blockLineCount [1] 4 ≤ ImageToGCode2.blockLineCount [0] 4 ∧
    ImageToGCode2.blockLineCount [0] 4 ≤ (4 : ℤ) := by
  have h := C6_block_monotonic [0] [1] 4 (by simp) (by simp)
    (by intro q hq; simp at hq; simp [hq])
    (by intro q hq; simp at hq; simp [hq])
    (by norm_num [ImageToGCode2.listMean])
  exact ⟨h.1, h.2.2.1⟩

/-! ## C7: diagonal family hatch over a fully-ink field -/

theorem range_shift_succ (n x : Nat) :
    (List.range (n + 1)).map (x + ·) = x :: (List.range n).map (x + 1 + ·) := by
  rw [List.range_succ_eq_map]
  simp only [List.map_cons, Nat.add_zero, List.map_map]
  have hfun : ((x + ·) ∘ Nat.succ) = (x + 1 + ·) := by
    funext i
    simp [Function.comp]
    omega
  rw [hfun]

theorem ImageToGCode.hatchRowAux_allInk (inB ink : Nat → Bool) (pos : Nat → Pt)
    (hink : ∀ t, ink t = true) :
    ∀ (n x : Nat) (pts : List Pt),
      ImageToGCode.hatchRowAux inB ink pos n x pts =
        ImageToGCode.closeRun
          (pts ++ ((((List.range n).map (x + ·)).filter inB).map pos)) := by
  intro n
  induction n with
  | zero =>
    intro x pts
    simp [ImageToGCode.hatchRowAux]
  | succ n ih =>
    intro x pts
    rw [range_shift_succ]
    by_cases hb : inB x = true
    · have : ImageToGCode.hatchRowAux inB ink pos (n + 1) x pts =
          ImageToGCode.hatchRowAux inB ink pos n (x + 1) (pts ++ [pos x]) := by
        simp only [ImageToGCode.hatchRowAux, hb, hink x, if_true]
      rw [this, ih]
      simp [List.filter_cons, hb]
    · have hb' : inB x = false := by
        cases hbb : inB x with
        | false => rfl
        | true => exact absurd hbb hb
      have : ImageToGCode.hatchRowAux inB ink pos (n + 1) x pts =
          ImageToGCode.hatchRowAux inB ink pos n (x + 1) pts := by
        simp only [ImageToGCode.hatchRowAux, hb']
        simp
      rw [this, ih]
      simp [List.filter_cons, hb']

theorem ImageToGCode.closeRun_length (pts : List Pt) :
    (ImageToGCode.closeRun pts).length = if 2 ≤ pts.length then 1 else 0 := by
  match pts with
  | [] => simp [ImageToGCode.closeRun]
  | [p] => simp [ImageToGCode.closeRun]
  | p :: q :: rest => simp [ImageToGCode.closeRun]

/-- C7 (amended): over a fully-ink W×H field with spacing `S > 0`, the
diagonal hatcher iterates exactly `⌈(W+H)/S⌉` offsets, all lying in
`[0, W+H)`; for each offset the emitted segments are `closeRun` of the
in-bounds diagonal pixels at that offset — exactly one segment, spanning from
the first to the last valid pixel of the diagonal, when that diagonal extent
holds at least two pixels, and none otherwise (offsets near the corners whose
valid extent has fewer than two pixels yield no segment, contrary to the
original claim). -/
theorem C7_amended (v : Nat → Nat → ℚ) (H W : Nat) (S thr : ℚ) (hS : 0 < S)
    (hink : ∀ y x, v y x < thr) :
    (ImageToGCode.arangeQ ((W : ℚ) + (H : ℚ)) S).length =
      (⌈((W : ℚ) + (H : ℚ)) / S⌉).toNat ∧
    (∀ o ∈ ImageToGCode.arangeQ ((W : ℚ) + (H : ℚ)) S,
      0 ≤ o ∧ o < (W : ℚ) + (H : ℚ)) ∧
    (∀ o, ImageToGCode.hatchRow v H W thr o =
      ImageToGCode.closeRun
        (((List.range W).filter (ImageToGCode.hatchInB H o)).map
          (ImageToGCode.hatchPos o))) ∧
    (∀ o, (ImageToGCode.hatchRow v H W thr o).length =
      if 2 ≤ ((List.range W).filter (ImageToGCode.hatchInB H o)).length
      then 1 else 0) := by
  have hrow : ∀ o, ImageToGCode.hatchRow v H W thr o =
      ImageToGCode.closeRun
        (((List.range W).filter (ImageToGCode.hatchInB H o)).map
          (ImageToGCode.hatchPos o)) := by
    intro o
    rw [ImageToGCode.hatchRow,
      ImageToGCode.hatchRowAux_allInk _ _ _
        (fun t => by
          simp only [ImageToGCode.hatchInkTest, decide_eq_true_eq]
          exact hink _ _) W 0 []]
    have : (List.range W).map (0 + ·) = List.range W := by
      simp
    rw [List.nil_append, this]
  refine ⟨?_, ?_, hrow, ?_⟩
  · simp [ImageToGCode.arangeQ]
  · intro o ho
    simp only [ImageToGCode.arangeQ, List.mem_map, List.mem_range] at ho
    obtain ⟨k, hk, rfl⟩ := ho
    constructor
    · positivity
    · have hkc : (k : ℤ) < ⌈((W : ℚ) + (H : ℚ)) / S⌉ := Int.lt_toNat.mp hk
      have : ((k : ℤ) : ℚ) < ((W : ℚ) + (H : ℚ)) / S := Int.lt_ceil.mp hkc
      have hq : (k : ℚ) < ((W : ℚ) + (H : ℚ)) / S := by exact_mod_cast this
      calc (k : ℚ) * S < (((W : ℚ) + (H : ℚ)) / S) * S := by
            exact mul_lt_mul_of_pos_right hq hS
        _ = (W : ℚ) + (H : ℚ) := div_mul_cancel₀ _ (ne_of_gt hS)
  · intro o
    rw [hrow o, ImageToGCode.closeRun_length, List.length_map]

/-- C7 witness: on the fully-ink 2×2 field with spacing 1 and threshold 1,
the hatcher iterates 4 offsets, and the offset `o = 1` (whose diagonal holds
the two pixels `(0, 1)` and `(1, 0)`) yields exactly one segment. -/
theorem C7_amended_witness :
    (ImageToGCode.arangeQ ((2 : ℚ) + (2 : ℚ)) 1).length = 4 ∧
    (ImageToGCode.hatchRow (fun _ _ => 0) 2 2 1 1).length = 1 ∧
    (ImageToGCode.hatchRow (fun _ _ => 0) 2 2 1 0).length = 0 := by
  have h := C7_amended (fun _ _ => 0) 2 2 1 1 (by norm_num) (fun y x => by norm_num)
  push_cast at h
  refine ⟨?_, ?_, ?_⟩
  · rw [h.1]; norm_num [show Int.toNat 4 = 4 from rfl]
  · rw [h.2.2.2 1]
    norm_num [ImageToGCode.hatchInB, ImageToGCode.hatchY, pyint, List.range_succ,
      List.filter_cons, Int.ceil_neg]
  · rw [h.2.2.2 0]
    norm_num [ImageToGCode.hatchInB, ImageToGCode.hatchY, pyint, List.range_succ,
      List.filter_cons, Int.ceil_neg]

/-- C7 counterexample: with W = H = 2, S = 1 and a fully-ink field, the claim
predicts `⌈(2+2)/1⌉ = 4` offsets each yielding exactly one Segment (4 total),
but the hatcher emits exactly one segment in total — the offsets 0, 2 and 3,
whose valid diagonal extents hold fewer than two pixels, yield none. -/
theorem C7_counterexample :
    ImageToGCode.generate_hatch_lines (fun _ _ => 0) 2 2 1 1 = [((0, 1), (1, 0))] ∧
    (ImageToGCode.arangeQ ((2 : ℚ) + (2 : ℚ)) 1).length = 4 ∧
    (ImageToGCode.generate_hatch_lines (fun _ _ => 0) 2 2 1 1).length ≠
      (ImageToGCode.arangeQ ((2 : ℚ) + (2 : ℚ)) 1).length := by
  have heval : ImageToGCode.generate_hatch_lines (fun _ _ => 0) 2 2 1 1 =
      [((0, 1), (1, 0))] := by
    norm_num [ImageToGCode.generate_hatch_lines, ImageToGCode.arangeQ,
      ImageToGCode.hatchRow, ImageToGCode.hatchRowAux, ImageToGCode.closeRun,
      ImageToGCode.hatchInB, ImageToGCode.hatchInkTest, ImageToGCode.hatchY,
      ImageToGCode.hatchPos, pyint, List.range_succ, Int.ceil_neg,
      show Int.toNat 4 = 4 from rfl]
  refine ⟨heval, by norm_num [ImageToGCode.arangeQ, show Int.toNat 4 = 4 from rfl], ?_⟩
  rw [heval]
  norm_num [ImageToGCode.arangeQ, show Int.toNat 4 = 4 from rfl]

/-! ## C9: degenerate segments -/

theorem getLastD_cons_mem : ∀ (rest : List Pt) (p1 d : Pt),
    (p1 :: rest).getLastD d ∈ p1 :: rest
  | [], p1, d => by simp
  | r :: rs, p1, d => by
    rw [List.getLastD_cons]
    exact List.mem_cons_of_mem _ (getLastD_cons_mem rs r p1)

theorem ImageToGCode.closeRun_nondegen {pts : List Pt}
    (hpw : pts.Pairwise (fun a b : Pt => a.1 < b.1)) :
    ∀ sg ∈ ImageToGCode.closeRun pts, sg.1 ≠ sg.2 := by
  match pts, hpw with
  | [], _ => intro sg hsg; simp [ImageToGCode.closeRun] at hsg
  | [p], _ => intro sg hsg; simp [ImageToGCode.closeRun] at hsg
  | p0 :: p1 :: rest, hpw =>
    intro sg hsg
    simp only [ImageToGCode.closeRun, List.mem_singleton] at hsg
    subst hsg
    have hmem := getLastD_cons_mem rest p1 p0
    have hlt : p0.1 < ((p1 :: rest).getLastD p0).1 :=
      (List.pairwise_cons.mp hpw).1 _ hmem
    intro heq
    simp only at heq
    rw [heq] at hlt
    exact lt_irrefl _ hlt

theorem ImageToGCode.hatchRowAux_nondegen (inB ink : Nat → Bool) (o : ℚ) :
    ∀ (n x : Nat) (pts : List Pt),
      (∀ p ∈ pts, p.1 < (x : ℚ)) →
      pts.Pairwise (fun a b : Pt => a.1 < b.1) →
      ∀ sg ∈ ImageToGCode.hatchRowAux inB ink (ImageToGCode.hatchPos o) n x pts,
        sg.1 ≠ sg.2 := by
  intro n
  induction n with
  | zero =>
    intro x pts hub hpw sg hsg
    exact ImageToGCode.closeRun_nondegen hpw sg
      (by simpa [ImageToGCode.hatchRowAux] using hsg)
  | succ n ih =>
    intro x pts hub hpw sg hsg
    have hstep : ∀ p ∈ pts, p.1 < ((x + 1 : Nat) : ℚ) := by
      intro p hp
      have := hub p hp
      push_cast
      push_cast at this
      linarith
    by_cases hb : inB x = true
    · by_cases hi : ink x = true
      · rw [show ImageToGCode.hatchRowAux inB ink (ImageToGCode.hatchPos o) (n + 1) x pts =
            ImageToGCode.hatchRowAux inB ink (ImageToGCode.hatchPos o) n (x + 1)
              (pts ++ [ImageToGCode.hatchPos o x]) from by
          simp only [ImageToGCode.hatchRowAux, hb, hi, if_true]] at hsg
        refine ih (x + 1) _ ?_ ?_ sg hsg
        · intro p hp
          rcases List.mem_append.mp hp with hmem | hmem
          · exact hstep p hmem
          · simp only [List.mem_singleton] at hmem
            subst hmem
            simp only [ImageToGCode.hatchPos]
            push_cast
            linarith
        · rw [List.pairwise_append]
          refine ⟨hpw, by simp, ?_⟩
          intro a ha b hbm
          simp only [List.mem_singleton] at hbm
          subst hbm
          simpa [ImageToGCode.hatchPos] using hub a ha
      · have hi' : ink x = false := by
          cases hbb : ink x with
          | false => rfl
          | true => exact absurd hbb hi
        rw [show ImageToGCode.hatchRowAux inB ink (ImageToGCode.hatchPos o) (n + 1) x pts =
            ImageToGCode.closeRun pts ++
              ImageToGCode.hatchRowAux inB ink (ImageToGCode.hatchPos o) n (x + 1) [] from by
          simp only [ImageToGCode.hatchRowAux, hb, hi']
          simp] at hsg
        rcases List.mem_append.mp hsg with hmem | hmem
        · exact ImageToGCode.closeRun_nondegen hpw sg hmem
        · exact ih (x + 1) [] (by simp) (by simp) sg hmem
    · have hb' : inB x = false := by
        cases hbb : inB x with
        | false => rfl
        | true => exact absurd hbb hb
      rw [show ImageToGCode.hatchRowAux inB ink (ImageToGCode.hatchPos o) (n + 1) x pts =
          ImageToGCode.hatchRowAux inB ink (ImageToGCode.hatchPos o) n (x + 1) pts from by
        simp only [ImageToGCode.hatchRowAux, hb']
        simp] at hsg
      exact ih (x + 1) pts hstep hpw sg hsg

/-- C9 counterexample: on the 1×3 row `[white, black, white]` the scanline
filler `generate_fill_lines_bw` emits the zero-length segment
`((1, 0), (1, 0))` for the single-pixel run at `x = 1` — a degenerate
segment with start = end, refuting the claim for the scanline strategy. -/
theorem C9_counterexample :
    (((1, 0), (1, 0)) : (Nat × Nat) × (Nat × Nat)) ∈
      ImageToGCode2.generate_fill_lines_bw (fun _ x => if x = 1 then 0 else 1) 1 3 1 ∧
    (((1, 0), (1, 0)) : (Nat × Nat) × (Nat × Nat)).1 =
      (((1, 0), (1, 0)) : (Nat × Nat) × (Nat × Nat)).2 := by
  refine ⟨?_, rfl⟩
  norm_num [ImageToGCode2.generate_fill_lines_bw, ImageToGCode2.scanRow,
    ImageToGCode2.scanRowAux, pyRangeStep, pyint, ImageToGCode2.bwInkTest,
    List.range_succ]

/-- C9 (amended): the diagonal hatcher (which discards point runs shorter
than two points and spans strictly increasing x) and the block density
hatcher (whose segments advance by `step ≥ 1` in x) never emit a degenerate
segment; the no-degenerate-segments invariant fails for the scanline fill:
the left→right filler `generate_fill_lines_bw` emits the degenerate segment
`((s, y), (s, y))` for every single-pixel maximal ink run `(s, s)` on a
sampled row (see the counterexample for a concrete instance). -/
theorem C9_amended (v : Nat → Nat → ℚ) (H W : Nat) (S thr step_px block_size sp : ℚ)
    (maxLines : Nat) (diagonal : Bool) :
    (∀ sg ∈ ImageToGCode.generate_hatch_lines v H W S thr, sg.1 ≠ sg.2) ∧
    (∀ sg ∈ ImageToGCode2.generate_density_hatch_blocks v H W step_px maxLines
        diagonal block_size, sg.1 ≠ sg.2) ∧
    (∀ y s, y ∈ pyRangeStep H (max 1 (pyint sp).toNat) →
      ImageToGCode2.isMaxRun (fun x => ImageToGCode2.bwInkTest (v y x)) W s s →
      ((s, y), (s, y)) ∈ ImageToGCode2.generate_fill_lines_bw v H W sp) := by
  refine ⟨?_, ?_, ?_⟩
  · intro sg hsg
    simp only [ImageToGCode.generate_hatch_lines, List.mem_flatMap] at hsg
    obtain ⟨o, -, hmem⟩ := hsg
    exact ImageToGCode.hatchRowAux_nondegen _ _ o W 0 [] (by simp) (by simp) sg hmem
  · intro sg hsg
    simp only [ImageToGCode2.generate_density_hatch_blocks, List.mem_flatMap] at hsg
    obtain ⟨y, -, x, -, hmem⟩ := hsg
    split_ifs at hmem with h1 h2
    · simp at hmem
    · simp at hmem
    · simp only [ImageToGCode2.blockSegs, List.mem_map] at hmem
      obtain ⟨i, -, heq⟩ := hmem
      have hstep : (1 : ℚ) ≤ ((max 1 (pyint step_px).toNat : Nat) : ℚ) := by
        have : (1 : Nat) ≤ max 1 (pyint step_px).toNat := le_max_left _ _
        exact_mod_cast this
      cases diagonal with
      | false =>
        rw [if_neg (by simp)] at heq
        subst heq
        intro hcontra
        simp at hcontra
        have hge : (1 : ℚ) ≤ 1 ⊔ ((pyint step_px).toNat : ℚ) := le_max_left _ _
        rw [hcontra] at hge
        linarith
      | true =>
        rw [if_pos rfl] at heq
        subst heq
        intro hcontra
        simp at hcontra
        have hge : (1 : ℚ) ≤ 1 ⊔ ((pyint step_px).toNat : ℚ) := le_max_left _ _
        rw [hcontra] at hge
        linarith
  · intro y s hy hmr
    simp only [ImageToGCode2.generate_fill_lines_bw, List.mem_flatMap]
    exact ⟨y, hy,
      List.mem_map.mpr ⟨(s, s), (ImageToGCode2.scanRow_mem _ _ s s).mpr hmr, rfl⟩⟩

/-- C9 witness: the one segment the diagonal hatcher emits on the fully-ink
2×2 field is not degenerate. -/
theorem C9_amended_witness :
    ((((0 : ℚ), (1 : ℚ)), ((1 : ℚ), (0 : ℚ))) : Seg).1 ≠
      ((((0 : ℚ), (1 : ℚ)), ((1 : ℚ), (0 : ℚ))) : Seg).2 := by
  refine (C9_amended (fun _ _ => 0) 2 2 1 1 1 1 1 4 false).1 _ ?_
  norm_num [ImageToGCode.generate_hatch_lines, ImageToGCode.arangeQ,
    ImageToGCode.hatchRow, ImageToGCode.hatchRowAux, ImageToGCode.closeRun,
    ImageToGCode.hatchInB, ImageToGCode.hatchInkTest, ImageToGCode.hatchY,
    ImageToGCode.hatchPos, pyint, List.range_succ, Int.ceil_neg,
    show Int.toNat 4 = 4 from rfl]

/-! ## C8: a no-ink field yields empty PathSets and a header-only stream -/

theorem ImageToGCode2.scanRowAux_noInk (ink : Nat → Bool) (width : Nat)
    (h : ∀ x, ink x = false) :
    ∀ n x, ImageToGCode2.scanRowAux ink width n x none = [] := by
  intro n
  induction n with
  | zero => intro x; simp [ImageToGCode2.scanRowAux]
  | succ n ih =>
    intro x
    simp only [ImageToGCode2.scanRowAux, h x]
    simpa using ih (x + 1)

theorem InkscapeToGCode.fillRowAux_noInk (ink : ℤ → Bool) (lastIdx : ℤ)
    (h : ∀ x, ink x = false) :
    ∀ xs, InkscapeToGCode.fillRowAux ink lastIdx xs none = [] := by
  intro xs
  induction xs with
  | nil => simp [InkscapeToGCode.fillRowAux]
  | cons x rest ih =>
    simp only [InkscapeToGCode.fillRowAux, h x]
    simpa using ih

theorem ImageToGCode.hatchRowAux_noInk (inB ink : Nat → Bool) (pos : Nat → Pt)
    (h : ∀ x, ink x = false) :
    ∀ n x, ImageToGCode.hatchRowAux inB ink pos n x [] = [] := by
  intro n
  induction n with
  | zero => intro x; simp [ImageToGCode.hatchRowAux, ImageToGCode.closeRun]
  | succ n ih =>
    intro x
    by_cases hb : inB x = true
    · simp only [ImageToGCode.hatchRowAux, hb, h x]
      simpa [ImageToGCode.closeRun] using ih (x + 1)
    · have hb' : inB x = false := by
        cases hbb : inB x with
        | false => rfl
        | true => exact absurd hbb hb
      simp only [ImageToGCode.hatchRowAux, hb']
      simpa using ih (x + 1)

theorem list_sum_all_one (l : List ℚ) (h : ∀ q ∈ l, q = 1) :
    l.sum = l.length := by
  induction l with
  | nil => simp
  | cons a t ih =>
    simp only [List.sum_cons, List.length_cons, h a (List.mem_cons_self a t)]
    push_cast
    rw [ih fun q hq => h q (List.mem_cons_of_mem a hq)]
    ring

theorem blockVals_all_one (v : Nat → Nat → ℚ) (h w y x bs : Nat)
    (hwhite : ∀ y x, v y x = 1) :
    ∀ q ∈ ImageToGCode2.blockVals v h w y x bs, q = 1 := by
  intro q hq
  simp only [ImageToGCode2.blockVals, List.mem_flatMap, List.mem_map] at hq
  obtain ⟨dy, -, dx, -, rfl⟩ := hq
  exact hwhite _ _

theorem MS.findContours_const_empty (g : Nat → Nat → ℚ) (level : ℚ) (H W : Nat)
    (hg : ∀ i j, MS.contourLevelTest level (g i j) = false) :
    MS.findContours g level H W = [] := by
  unfold MS.findContours
  rw [List.filter_eq_nil_iff]
  intro a ha
  simp only [List.mem_flatMap, List.mem_map] at ha
  obtain ⟨i, -, j, -, rfl⟩ := ha
  simp [MS.cellPts, MS.edgeCross, hg]

/-- C8 counterexample: with an empty PathSet, `ImageToGCode2.generate_gcode`
produces three lines — a size comment followed by the two header lines — not
"exactly the two header lines and nothing else" as claimed. -/
theorem C8_counterexample :
    ImageToGCode2.generate_gcode [] 10 10 100 200 (1 / 100) 2000 =
      [Cmd.comment, Cmd.unitsMM, Cmd.absolute] ∧
    [Cmd.comment, Cmd.unitsMM, Cmd.absolute] ≠ [Cmd.unitsMM, Cmd.absolute] := by
  exact ⟨rfl, by simp⟩

/-- C8 (amended): a ToneField with no ink above threshold is not an error:
every generator returns an empty PathSet (the normalized generators on a pure
white field `v ≡ 1`; the 8-bit diagonal hatcher on any field with no pixel
below its threshold), and the compilers emit valid header-only streams —
`InkscapeToGCode.generate_gcode` exactly the two header lines,
`ImageToGCode2.generate_gcode` the two header lines preceded by one size
comment. -/
theorem C8_amended (v vx : Nat → Nat → ℚ) (h w hx wx : Nat)
    (sp step_mm page_w step_px bsz thr spacing iw ihh pw ph tiny feed : ℚ)
    (maxL : Nat) (diag : Bool)
    (hwhite : ∀ y x, v y x = 1) (hnoink : ∀ y x, ¬ vx y x < thr) :
    ImageToGCode2.generate_fill_lines_bw v h w sp = [] ∧
    InkscapeToGCode.generate_fill_lines v h w step_mm page_w = [] ∧
    ImageToGCode2.generate_density_hatch_blocks v h w step_px maxL diag bsz = [] ∧
    ImageToGCode2.generate_outline v h w = [] ∧
    InkscapeToGCode.generate_outline v h w = [] ∧
    ImageToGCode.generate_hatch_lines vx hx wx spacing thr = [] ∧
    InkscapeToGCode.generate_gcode [] iw ihh = [Cmd.unitsMM, Cmd.absolute] ∧
    ImageToGCode2.generate_gcode [] iw ihh pw ph tiny feed =
      [Cmd.comment, Cmd.unitsMM, Cmd.absolute] := by
  have hbw : ∀ y, (fun x => ImageToGCode2.bwInkTest (v y x)) = fun _ => false := by
    intro y
    funext x
    norm_num [ImageToGCode2.bwInkTest, hwhite y x]
  refine ⟨?_, ?_, ?_, ?_, ?_, ?_, rfl, rfl⟩
  · simp only [ImageToGCode2.generate_fill_lines_bw, List.flatMap_eq_nil_iff]
    intro y hy
    rw [ImageToGCode2.scanRow, hbw y,
      ImageToGCode2.scanRowAux_noInk _ _ (fun _ => rfl)]
    rfl
  · simp only [InkscapeToGCode.generate_fill_lines, List.flatMap_eq_nil_iff]
    intro iy hiy
    rw [InkscapeToGCode.fillRowAux_noInk _ _
      (fun x => by norm_num [ImageToGCode2.bwInkTest, hwhite])]
    rfl
  · simp only [ImageToGCode2.generate_density_hatch_blocks, List.flatMap_eq_nil_iff]
    intro y hy
    intro x hx2
    by_cases hb : ImageToGCode2.blockVals v h w y x (max 1 (pyint bsz).toNat) = []
    · rw [if_pos hb]
    · rw [if_neg hb]
      have hall := blockVals_all_one v h w y x (max 1 (pyint bsz).toNat) hwhite
      have hsum := list_sum_all_one _ hall
      have hlen : ((ImageToGCode2.blockVals v h w y x
          (max 1 (pyint bsz).toNat)).length : ℚ) ≠ 0 := by
        have := List.length_pos.mpr hb
        positivity
      have hmean : ImageToGCode2.listMean
          (ImageToGCode2.blockVals v h w y x (max 1 (pyint bsz).toNat)) = 1 := by
        rw [ImageToGCode2.listMean, hsum, div_self hlen]
      have hcount : ImageToGCode2.blockLineCount
          (ImageToGCode2.blockVals v h w y x (max 1 (pyint bsz).toNat)) maxL = 0 := by
        rw [ImageToGCode2.blockLineCount, hmean]
        norm_num [roundHalfEven]
      rw [if_pos (by rw [hcount])]
  · unfold ImageToGCode2.generate_outline
    rw [MS.findContours_const_empty _ _ _ _
      (fun i j => by simp [MS.contourLevelTest, hwhite i j])]
    rfl
  · unfold InkscapeToGCode.generate_outline
    rw [MS.findContours_const_empty _ _ _ _
      (fun i j => by simp [MS.contourLevelTest, hwhite i j])]
    rfl
  · simp only [ImageToGCode.generate_hatch_lines, List.flatMap_eq_nil_iff]
    intro o ho
    rw [ImageToGCode.hatchRow,
      ImageToGCode.hatchRowAux_noInk _ _ _
        (fun x => by simp [ImageToGCode.hatchInkTest, hnoink])]

/-- C8 witness: concrete pure-white 2×2 field (value 1 everywhere; 255 on the
8-bit scale against threshold 128): the scanline fill is empty and the
Inkscape compiler stream is exactly the two header lines. -/
theorem C8_amended_witness :
    ImageToGCode2.generate_fill_lines_bw (fun _ _ => 1) 2 2 1 = [] ∧
    ImageToGCode.generate_hatch_lines (fun _ _ => 255) 2 2 1 128 = [] ∧
    InkscapeToGCode.generate_gcode [] 20 20 = [Cmd.unitsMM, Cmd.absolute] := by
  have hh := C8_amended (fun _ _ => 1) (fun _ _ => 255) 2 2 2 2
    1 1 135 1 4 128 1 20 20 100 200 (1 / 100) 2000 4 false
    (fun y x => rfl) (fun y x => by norm_num)
  exact ⟨hh.1, hh.2.2.2.2.2.1, hh.2.2.2.2.2.2.1⟩

/-! ## C10: ink polarity at the threshold boundary -/

/-- C10 counterexample: a pixel whose value equals the threshold exactly is
non-ink for the B&W fill (strict `< 0.5`), but under the spec's `tone ≥ τ`
boundary convention the contour tracer's vertex test at the inverted value
`1 - 0.5` and level `0.5` puts it on the ink side — so equality is not
treated as non-ink by every strategy. -/
theorem C10_counterexample :
    ImageToGCode2.bwInkTest (1 / 2) = false ∧
    MS.contourLevelTest (1 / 2) (1 - 1 / 2) = true ∧
    MS.contourLevelTest (1 / 2) (1 - 1 / 2) ≠ ImageToGCode2.bwInkTest (1 / 2) := by
  refine ⟨by norm_num [ImageToGCode2.bwInkTest], by norm_num [MS.contourLevelTest], ?_⟩
  norm_num [ImageToGCode2.bwInkTest, MS.contourLevelTest]

/-- C10 (amended): the B&W fill tests `value < 0.5` and the diagonal hatch
tests `value < gray_threshold`, both strict, so a pixel whose value equals
the threshold is non-ink for the fill and hatch strategies; the two outline
generators invert the field (`1 - value`) before contouring at level `0.5`,
and under the spec's `tone(p) ≥ τ` boundary convention (the comparison
itself lives in the external `skimage.measure.find_contours`) the tracer's
vertex test at `1 - value ≥ 0.5`, i.e. `value ≤ 0.5`, puts a pixel with
value exactly `0.5` on the ink side — equality is treated as non-ink by the
fill and hatch strategies only. -/
theorem C10_amended (thr q : ℚ) (v : Nat → Nat → ℚ) (H W : Nat) :
    (ImageToGCode2.bwInkTest q = true ↔ q < 1 / 2) ∧
    (ImageToGCode.hatchInkTest thr q = true ↔ q < thr) ∧
    (MS.contourLevelTest (1 / 2) (1 - q) = true ↔ q ≤ 1 / 2) ∧
    ImageToGCode2.bwInkTest (1 / 2) = false ∧
    ImageToGCode.hatchInkTest thr thr = false ∧
    MS.contourLevelTest (1 / 2) (1 - 1 / 2) = true ∧
    ImageToGCode2.generate_outline v H W =
      (MS.findContours (fun i j => 1 - v i j) (1 / 2) H W).flatMap MS.polySegs ∧
    InkscapeToGCode.generate_outline v H W =
      (MS.findContours (fun i j => 1 - v i j) (1 / 2) H W).flatMap MS.polySegs := by
  refine ⟨?_, ?_, ?_, ?_, ?_, ?_, rfl, rfl⟩
  · simp [ImageToGCode2.bwInkTest]
  · simp [ImageToGCode.hatchInkTest]
  · simp only [MS.contourLevelTest, decide_eq_true_eq]
    constructor <;> intro <;> linarith
  · norm_num [ImageToGCode2.bwInkTest]
  · simp [ImageToGCode.hatchInkTest]
  · norm_num [MS.contourLevelTest]

/-! ## C3 (continued): the boustrophedon filler violates run correctness -/

/-- C3 counterexample: the claim's sources include
`InkscapeToGCode.generate_fill_lines`, which on the 3×2 field whose row 1 is
`[white, black, black]` (row step 1, so row index 1 is scanned right→left)
emits the single segment from `(2, 1)` to `(-1, 1)`: the pixel `x = 0` lies
strictly inside that emitted run (`-1 < 0 < 2`) yet fails the ink test, and
the bound `-1` is not a valid pixel index — refuting boundary correctness
for that filler. -/
theorem C3_counterexample :
    InkscapeToGCode.generate_fill_lines (fun y x => if y = 1 ∧ 1 ≤ x then 0 else 1) 2 3 1 3 =
      [((2, 1), (-1, 1))] ∧
    ((-1 : ℤ) < 0 ∧ (0 : ℤ) < 2) ∧
    ImageToGCode2.bwInkTest ((fun y x => if y = 1 ∧ 1 ≤ x then (0 : ℚ) else 1) 1 0) = false ∧
    ((-1 : ℤ) < 0) := by
  refine ⟨?_, by decide, by norm_num [ImageToGCode2.bwInkTest], by decide⟩
  norm_num [InkscapeToGCode.generate_fill_lines, InkscapeToGCode.fillRowAux,
    InkscapeToGCode.ascXs, InkscapeToGCode.descXs, pyRangeStep, pyint,
    ImageToGCode2.bwInkTest, List.range_succ, List.enum, Int.ceil_neg]
